import Mathlib

/-!
Verification of the core of a documentation indexing and retrieval
pipeline: structure-aware chunking, a SQLite-backed vector store, hybrid
search with Reciprocal Rank Fusion, and the integrity-check / atomic
database-swap / background-refresh protocol.  Each definition is a
shallow embedding of the corresponding Python function, with the source
file and line range named in its doc comment.
-/

namespace DocMcp

/-! ## Insertion-ordered dictionaries (Python `dict` / SQL keyed tables) -/

/-- Lookup in an insertion-ordered association list (Python `m[k]` /
`m.get(k)`). -/
def dictGet {α : Type} : List (String × α) → String → Option α
  | [], _ => none
  | (k', v) :: rest, k => if k' = k then some v else dictGet rest k

/-- Python `m.get(k, d)`: lookup with a default. -/
def dictGetD {α : Type} (m : List (String × α)) (k : String) (d : α) : α :=
  (dictGet m k).getD d

/-- Python `dict` assignment `m[k] = v`: update in place when the key is
present, append otherwise. -/
def dictSet {α : Type} : List (String × α) → String → α → List (String × α)
  | [], k, v => [(k, v)]
  | (k', v') :: rest, k, v =>
    if k' = k then (k, v) :: rest else (k', v') :: dictSet rest k v

/-- Python `k in m`. -/
def dictContains {α : Type} (m : List (String × α)) (k : String) : Bool :=
  (dictGet m k).isSome

theorem dictGet_set_self {α : Type} (m : List (String × α)) (k : String) (v : α) :
    dictGet (dictSet m k v) k = some v := by
  induction m with
  | nil => simp [dictGet, dictSet]
  | cons p rest ih =>
    by_cases h : p.1 = k
    · simp [dictSet, h, dictGet]
    · simp [dictSet, h, dictGet, ih]

theorem dictGet_set_ne {α : Type} (m : List (String × α)) (k k' : String) (v : α)
    (h : k ≠ k') : dictGet (dictSet m k v) k' = dictGet m k' := by
  induction m with
  | nil => simp [dictGet, dictSet, h]
  | cons p rest ih =>
    by_cases hp : p.1 = k
    · simp [dictSet, hp, dictGet, h]
    · by_cases hp' : p.1 = k'
      · simp [dictSet, hp, dictGet, hp', Ne.symm h]
      · simp [dictSet, hp, dictGet, hp', ih]

/-! ## Data model: `DocumentationChunk` (src/models/chunk.py) -/

/-- The fields of `DocumentationChunk` (src/models/chunk.py lines 9-38).
`created_at` is an abstract timestamp; `chunk_position` and `token_count`
carry the validated nonnegative values as `Nat`. -/
structure DocumentationChunk where
  id : String
  content : String
  source_file : String
  section_heading : Option String
  chunk_position : Nat
  token_count : Nat
  created_at : Int
  deriving Repr, DecidableEq

/-- The pydantic field constraints of `DocumentationChunk` that can fail on
chunker- or storage-produced values: `content` has `min_length=1` and
`token_count` has `gt=0` (`chunk_position ≥ 0` holds by the `Nat` type;
generated ids are fresh UUIDs and always pass the UUID check). -/
def chunkValid (c : DocumentationChunk) : Prop :=
  c.content ≠ "" ∧ 0 < c.token_count

instance : DecidablePred chunkValid := fun c => by
  unfold chunkValid
  infer_instance

/-- Constructing a `DocumentationChunk`: pydantic raises a validation
error when a field constraint fails. -/
def mkChunk (id content source_file : String) (heading : Option String)
    (pos tokCount : Nat) (createdAt : Int) : Except String DocumentationChunk :=
  if chunkValid ⟨id, content, source_file, heading, pos, tokCount, createdAt⟩ then
    .ok ⟨id, content, source_file, heading, pos, tokCount, createdAt⟩
  else .error "ValidationError"

/-! ## Chunker (src/services/chunker.py) -/

/-- Token codec interface (the external tiktoken encoder the chunker
delegates to). -/
structure Encoder where
  encode : String → List Nat
  decode : List Nat → String

/-- Chunker configuration (src/config.py lines 41-52); the pydantic
`ge`/`le` bounds on each field are part of the model and are carried as
proofs. -/
structure ChunkerConfig where
  chunk_size_tokens : Nat
  chunk_overlap_tokens : Nat
  min_chunk_size_tokens : Nat
  size_lb : 256 ≤ chunk_size_tokens
  size_ub : chunk_size_tokens ≤ 1024
  overlap_ub : chunk_overlap_tokens ≤ 200
  min_lb : 50 ≤ min_chunk_size_tokens
  min_ub : min_chunk_size_tokens ≤ 512

theorem ChunkerConfig.overlap_lt_size (cfg : ChunkerConfig) :
    cfg.chunk_overlap_tokens < cfg.chunk_size_tokens :=
  lt_of_le_of_lt cfg.overlap_ub (lt_of_lt_of_le (by norm_num) cfg.size_lb)

/-- A `Chunker` instance (chunker.py lines 13-23): a token codec plus the
configured sizes. -/
structure Chunker where
  enc : Encoder
  cfg : ChunkerConfig

/-- The sliding-window loop of `Chunker._chunk_section` (chunker.py lines
218-250): emit the token window `[start, min (start + size) total)`, stop
when the window reaches the end of the token list, otherwise advance by
`size - overlap`. -/
def chunkSectionLoop (C : Chunker) (tokens : List Nat) (heading : Option String)
    (src : String) (start pos : Nat) : Except String (List DocumentationChunk) := do
  let c ← mkChunk ""
    (C.enc.decode ((tokens.drop start).take
      (min (start + C.cfg.chunk_size_tokens) tokens.length - start)))
    src heading pos
    ((tokens.drop start).take
      (min (start + C.cfg.chunk_size_tokens) tokens.length - start)).length
    0
  if min (start + C.cfg.chunk_size_tokens) tokens.length = tokens.length then
    pure [c]
  else do
    let rest ← chunkSectionLoop C tokens heading src
      (min (start + C.cfg.chunk_size_tokens) tokens.length - C.cfg.chunk_overlap_tokens)
      (pos + 1)
    pure (c :: rest)
termination_by tokens.length - start
decreasing_by
  have hov := C.cfg.overlap_lt_size
  omega

/-- `Chunker._chunk_section` (chunker.py lines 194-250): a section whose
token count fits in the budget becomes one chunk, larger sections go
through the sliding window. -/
def chunkSection (C : Chunker) (content : String) (heading : Option String)
    (src : String) : Except String (List DocumentationChunk) :=
  let tokens := C.enc.encode content
  if tokens.length ≤ C.cfg.chunk_size_tokens then do
    let c ← mkChunk "" content src heading 0 tokens.length 0
    pure [c]
  else
    chunkSectionLoop C tokens heading src 0 0

/-- `Chunker._create_aggregated_chunk` (chunker.py lines 154-192): join
the accumulated section texts, derive the (possibly suffixed) heading,
and emit one chunk or fall back to the sliding window. -/
def createAggregatedChunk (C : Chunker) (contentParts headings : List String)
    (src : String) : Except String (List DocumentationChunk) :=
  let combined := String.intercalate "\n\n" contentParts
  let combinedTokens := (C.enc.encode combined).length
  let heading : Option String :=
    if headings.length = 1 then some (headings.headD "")
    else some ((headings.headD "") ++ " (+ " ++ toString (headings.length - 1) ++ " more)")
  if combinedTokens ≤ C.cfg.chunk_size_tokens then do
    let c ← mkChunk "" combined src heading 0 combinedTokens 0
    pure [c]
  else
    chunkSection C combined heading src

/-- Accumulator state of `Chunker._chunk_with_section_aggregation`
(chunker.py lines 72-75). -/
structure AggState where
  chunks : List DocumentationChunk
  aggContent : List String
  aggHeadings : List String
  currentTokens : Nat

/-- The per-section loop of `Chunker._chunk_with_section_aggregation`
(chunker.py lines 77-114).  The Python comparison
`peek ≤ chunk_size_tokens * 1.2` is written here as `5 * peek ≤ 6 * size`,
which agrees with the float comparison on the configured size range. -/
def aggLoop (C : Chunker) (src : String) :
    List (String × String) → AggState → Except String AggState
  | [], st => pure st
  | (heading, content) :: rest, st =>
    let sectionTokens := (C.enc.encode content).length
    if 0 < st.currentTokens ∧
        C.cfg.chunk_size_tokens < st.currentTokens + sectionTokens then
      if st.currentTokens < C.cfg.min_chunk_size_tokens ∧ ¬ rest.isEmpty ∧
          5 * (st.currentTokens + sectionTokens) ≤ 6 * C.cfg.chunk_size_tokens then
        aggLoop C src rest
          { st with
            aggContent := st.aggContent ++ [content]
            aggHeadings := st.aggHeadings ++ [heading]
            currentTokens := st.currentTokens + sectionTokens }
      else do
        let newChunks ← createAggregatedChunk C st.aggContent st.aggHeadings src
        aggLoop C src rest
          { chunks := st.chunks ++ newChunks
            aggContent := [content]
            aggHeadings := [heading]
            currentTokens := sectionTokens }
    else
      aggLoop C src rest
        { st with
          aggContent := st.aggContent ++ [content]
          aggHeadings := st.aggHeadings ++ [heading]
          currentTokens := st.currentTokens + sectionTokens }

/-- `Chunker._chunk_with_section_aggregation` (chunker.py lines 56-152):
run the per-section loop, then flush the trailing buffer, merging it into
the previously emitted chunk when it is under the minimum and the merge
stays within the 20% tolerance. -/
def chunkWithSectionAggregation (C : Chunker) (sections : List (String × String))
    (src : String) : Except String (List DocumentationChunk) := do
  let st ← aggLoop C src sections ⟨[], [], [], 0⟩
  if st.aggContent.isEmpty then
    pure st.chunks
  else
    match st.chunks.getLast?, decide (st.currentTokens < C.cfg.min_chunk_size_tokens) with
    | some last, true =>
      if 5 * (last.token_count + st.currentTokens) ≤ 6 * C.cfg.chunk_size_tokens then do
        let merged ← mkChunk ""
          (last.content ++ "\n\n" ++ String.intercalate "\n\n" st.aggContent)
          src last.section_heading last.chunk_position
          (last.token_count + st.currentTokens) 0
        pure (st.chunks.dropLast ++ [merged])
      else do
        let extra ← createAggregatedChunk C st.aggContent st.aggHeadings src
        pure (st.chunks ++ extra)
    | _, _ => do
      let extra ← createAggregatedChunk C st.aggContent st.aggHeadings src
      pure (st.chunks ++ extra)

/-- `ParsedContent` (src/services/doc_parser.py lines 13-20): full text
plus an ordered list of (heading, content) sections. -/
structure ParsedContent where
  text : String
  title : Option String
  sections : List (String × String)

/-- The position reassignment at the end of `Chunker.chunk` (chunker.py
lines 50-52): positions become sequential 0-indexed over the final
emitted sequence. -/
def assignPositions (chunks : List DocumentationChunk) : List DocumentationChunk :=
  chunks.enum.map fun p => { p.2 with chunk_position := p.1 }

/-- `Chunker.chunk` (chunker.py lines 25-54). -/
def Chunker.chunk (C : Chunker) (pc : ParsedContent) (src : String) :
    Except String (List DocumentationChunk) := do
  let chunks ←
    if pc.sections.isEmpty then chunkSection C pc.text none src
    else chunkWithSectionAggregation C pc.sections src
  pure (assignPositions chunks)

/-- A concrete one-token-per-character codec, used to instantiate the
chunker theorems on closed inputs. -/
def charEncoder : Encoder where
  encode s := s.toList.map Char.toNat
  decode ts := String.mk (ts.map Char.ofNat)

/-- The default chunker configuration (src/config.py: size 512, overlap
100, minimum 100). -/
def defaultCfg : ChunkerConfig :=
  ⟨512, 100, 100, by norm_num, by norm_num, by norm_num, by norm_num, by norm_num⟩

def charChunker : Chunker := ⟨charEncoder, defaultCfg⟩

theorem exceptBind_ok {ε α β : Type} (a : α) (f : α → Except ε β) :
    (Except.ok a >>= f : Except ε β) = f a := rfl

theorem exceptBind_error {ε α β : Type} (e : ε) (f : α → Except ε β) :
    (Except.error e >>= f : Except ε β) = Except.error e := rfl

theorem exceptPure_eq {ε α : Type} (a : α) :
    (pure a : Except ε α) = Except.ok a := rfl

theorem mkChunk_ok {id content src : String} {heading : Option String}
    {pos tok : Nat} {ca : Int} {c : DocumentationChunk}
    (h : mkChunk id content src heading pos tok ca = .ok c) :
    c = ⟨id, content, src, heading, pos, tok, ca⟩ := by
  unfold mkChunk at h
  split at h
  · exact (Except.ok.inj h).symm
  · exact absurd h (by simp)

theorem assignPositions_token (chunks : List DocumentationChunk)
    (c : DocumentationChunk) (h : c ∈ assignPositions chunks) :
    ∃ c' ∈ chunks, c.token_count = c'.token_count := by
  unfold assignPositions at h
  obtain ⟨p, hp, rfl⟩ := List.mem_map.1 h
  exact ⟨p.2, List.snd_mem_of_mem_enum hp, rfl⟩

/-- Every chunk emitted by the sliding-window loop carries a token count
within the configured budget. -/
theorem chunkSectionLoop_token_bound (C : Chunker) (tokens : List Nat)
    (heading : Option String) (src : String) :
    ∀ fuel start pos cs, tokens.length - start ≤ fuel →
      chunkSectionLoop C tokens heading src start pos = .ok cs →
      ∀ c ∈ cs, c.token_count ≤ C.cfg.chunk_size_tokens := by
  intro fuel
  induction fuel with
  | zero =>
    intro start pos cs hle h c hc
    rw [chunkSectionLoop] at h
    cases hmk : mkChunk ""
        (C.enc.decode ((tokens.drop start).take
          (min (start + C.cfg.chunk_size_tokens) tokens.length - start)))
        src heading pos
        ((tokens.drop start).take
          (min (start + C.cfg.chunk_size_tokens) tokens.length - start)).length 0 with
    | error e =>
      rw [hmk, exceptBind_error] at h
      exact Except.noConfusion h
    | ok c0 =>
      rw [hmk, exceptBind_ok] at h
      have hc0 := mkChunk_ok hmk
      have hmin : min (start + C.cfg.chunk_size_tokens) tokens.length =
          tokens.length := by omega
      rw [if_pos hmin, exceptPure_eq] at h
      injection h with h
      subst h
      rw [List.mem_singleton] at hc
      subst hc
      subst hc0
      simp only [List.length_take, List.length_drop]
      omega
  | succ n ih =>
    intro start pos cs hle h c hc
    rw [chunkSectionLoop] at h
    cases hmk : mkChunk ""
        (C.enc.decode ((tokens.drop start).take
          (min (start + C.cfg.chunk_size_tokens) tokens.length - start)))
        src heading pos
        ((tokens.drop start).take
          (min (start + C.cfg.chunk_size_tokens) tokens.length - start)).length 0 with
    | error e =>
      rw [hmk, exceptBind_error] at h
      exact Except.noConfusion h
    | ok c0 =>
      rw [hmk, exceptBind_ok] at h
      have hc0 := mkChunk_ok hmk
      have hbound : c0.token_count ≤ C.cfg.chunk_size_tokens := by
        subst hc0
        simp only [List.length_take, List.length_drop]
        omega
      by_cases hend : min (start + C.cfg.chunk_size_tokens) tokens.length = tokens.length
      · rw [if_pos hend, exceptPure_eq] at h
        injection h with h
        subst h
        rw [List.mem_singleton] at hc
        subst hc
        exact hbound
      · rw [if_neg hend] at h
        cases hrec : chunkSectionLoop C tokens heading src
            (min (start + C.cfg.chunk_size_tokens) tokens.length -
              C.cfg.chunk_overlap_tokens) (pos + 1) with
        | error e =>
          rw [hrec, exceptBind_error] at h
          exact Except.noConfusion h
        | ok rest =>
          rw [hrec, exceptBind_ok, exceptPure_eq] at h
          injection h with h
          subst h
          rcases List.mem_cons.1 hc with hc | hc
          · subst hc; exact hbound
          · have hov := C.cfg.overlap_lt_size
            exact ih (min (start + C.cfg.chunk_size_tokens) tokens.length -
                C.cfg.chunk_overlap_tokens) (pos + 1) rest (by omega) hrec c hc

/-- Every chunk emitted by `_chunk_section` carries a token count within
the configured budget. -/
theorem chunkSection_token_bound (C : Chunker) (content : String)
    (heading : Option String) (src : String) (cs : List DocumentationChunk)
    (h : chunkSection C content heading src = .ok cs) :
    ∀ c ∈ cs, c.token_count ≤ C.cfg.chunk_size_tokens := by
  unfold chunkSection at h
  by_cases hle : (C.enc.encode content).length ≤ C.cfg.chunk_size_tokens
  · rw [if_pos hle] at h
    cases hmk : mkChunk "" content src heading 0 (C.enc.encode content).length 0 with
    | error e =>
      rw [hmk, exceptBind_error] at h
      exact Except.noConfusion h
    | ok c0 =>
      rw [hmk, exceptBind_ok, exceptPure_eq] at h
      injection h with h
      subst h
      intro c hc
      rw [List.mem_singleton] at hc
      subst hc
      have := mkChunk_ok hmk
      subst this
      exact hle
  · rw [if_neg hle] at h
    exact chunkSectionLoop_token_bound C (C.enc.encode content) heading src
      (C.enc.encode content).length 0 0 cs (by omega) h

/-- C8: for every parsed document with no sections and non-empty content,
chunking with `chunk_size_tokens = T` produces chunks each of whose
`token_count` is at most `T`. -/
theorem C8_flat_chunks_within_budget (C : Chunker) (pc : ParsedContent)
    (src : String) (hsec : pc.sections = []) (_hne : pc.text ≠ "")
    (cs : List DocumentationChunk) (h : Chunker.chunk C pc src = .ok cs) :
    ∀ c ∈ cs, c.token_count ≤ C.cfg.chunk_size_tokens := by
  unfold Chunker.chunk at h
  rw [hsec] at h
  simp only [List.isEmpty_nil, if_pos] at h
  cases hcs : chunkSection C pc.text none src with
  | error e =>
    rw [hcs, exceptBind_error] at h
    exact Except.noConfusion h
  | ok cs0 =>
    rw [hcs, exceptBind_ok, exceptPure_eq] at h
    injection h with h
    subst h
    intro c hc
    obtain ⟨c', hc', htok⟩ := assignPositions_token cs0 c hc
    rw [htok]
    exact chunkSection_token_bound C pc.text none src cs0 hcs c' hc'

/-- C8 witness: the bound instantiated on a concrete five-character
document chunked by the character codec. -/
theorem C8_witness :
    ("hello" : String) ≠ "" ∧
    ∀ c ∈ [(⟨"", "hello", "f", none, 0, 5, 0⟩ : DocumentationChunk)],
      c.token_count ≤ charChunker.cfg.chunk_size_tokens :=
  ⟨by decide, C8_flat_chunks_within_budget charChunker ⟨"hello", none, []⟩ "f"
    rfl (by decide) [⟨"", "hello", "f", none, 0, 5, 0⟩] (by rfl)⟩

/-- C2 (amended): for every token codec that encodes the empty string to
no tokens, chunking a parsed document with no sections and zero-length
content raises a validation error (the chunk model rejects empty content
and a zero token count); it does not return zero chunks. -/
theorem C2_chunk_empty_content_raises (C : Chunker) (pc : ParsedContent)
    (src : String) (henc : C.enc.encode "" = [])
    (htext : pc.text = "") (hsec : pc.sections = []) :
    Chunker.chunk C pc src = .error "ValidationError" := by
  unfold Chunker.chunk
  rw [hsec]
  simp only [List.isEmpty_nil, if_pos]
  rw [htext]
  unfold chunkSection
  rw [henc]
  simp [mkChunk, chunkValid, Except.bind]

/-- C2 counterexample: on the empty flat document, `Chunker.chunk` with
the character codec raises a validation error instead of returning zero
chunks. -/
theorem C2_counterexample :
    Chunker.chunk charChunker ⟨"", none, []⟩ "docs/index.md" =
      .error "ValidationError" := by
  rfl

/-- C2 witness for the amended claim: the amended statement instantiated
at the character codec and the empty document. -/
theorem C2_witness :
    Chunker.chunk charChunker ⟨"", none, []⟩ "f" = .error "ValidationError" :=
  C2_chunk_empty_content_raises charChunker ⟨"", none, []⟩ "f" rfl rfl rfl

/-! ## DatabaseManager (src/services/db_manager.py) -/

/-- Contents of a SQLite database file, as far as the integrity check
observes them: the `PRAGMA integrity_check` verdict and the table names
recorded in `sqlite_master`. -/
structure DBFile where
  integrityOk : Bool
  tables : List String
  deriving Repr, DecidableEq

/-- A directory of database files: path → file. -/
abbrev FileSystem := List (String × DBFile)

/-- The errors `swap_databases` can surface: `IntegrityCheckError` from
step 1 propagates unwrapped; later failures are re-raised wrapped. -/
inductive SwapError
  | integrityCheckError (msg : String)
  | swapFailed (msg : String)
  deriving Repr, DecidableEq

/-- The tables required by `_check_db_integrity` (db_manager.py line 53). -/
def requiredTables : List String := ["chunks", "vec_chunks", "metadata"]

/-- `DatabaseManager._check_db_integrity` (db_manager.py lines 26-65):
missing file, failed `PRAGMA integrity_check`, or a missing required
table each raise `IntegrityCheckError`. -/
def checkDbIntegrity (fs : FileSystem) (path : String) : Except SwapError Unit :=
  match dictGet fs path with
  | none => .error (.integrityCheckError "Database file does not exist")
  | some f =>
    if f.integrityOk then
      if requiredTables.all (fun t => f.tables.contains t) then .ok ()
      else .error (.integrityCheckError "Missing required tables")
    else .error (.integrityCheckError "Database integrity check failed")

/-- Delete a path from the directory. -/
def fsRemove (fs : FileSystem) (path : String) : FileSystem :=
  fs.filter (fun p => p.1 ≠ path)

/-- `os.rename src dst` on the model directory (used only where the
source is known to exist). -/
def fsRename (fs : FileSystem) (src dst : String) : FileSystem :=
  match dictGet fs src with
  | none => fs
  | some f => dictSet (fsRemove fs src) dst f

/-- The outcome of one `swap_databases` call: the directory afterwards
and the raised error, if any. -/
structure SwapOutcome where
  fs : FileSystem
  err : Option SwapError
  deriving Repr, DecidableEq

/-- `DatabaseManager.swap_databases` (db_manager.py lines 67-132): verify
the candidate, rename the live store aside to the timestamped backup
name if it exists, rename the candidate into the live path.  Renames on
the model directory succeed, so the step-3 failure/rollback paths are
not exercised; backup pruning (step 4) is best-effort and removes only
older backup files, which the claims never observe, so it is not
modeled. -/
def swapDatabases (fs : FileSystem) (tempPath activePath backupPath : String) :
    SwapOutcome :=
  match checkDbIntegrity fs tempPath with
  | .error e => { fs := fs, err := some e }
  | .ok _ =>
    let fs1 :=
      if (dictGet fs activePath).isSome then fsRename fs activePath backupPath
      else fs
    let fs2 := fsRename fs1 tempPath activePath
    { fs := fs2, err := none }

/-- C3: a candidate store that fails the integrity check (file missing,
`PRAGMA integrity_check` not ok, or a required table among
chunks/vec_chunks/metadata absent) makes `swap_databases` raise
`IntegrityCheckError` with no rename or delete performed: the directory,
and in particular the live store, is exactly as before the call. -/
theorem C3_invalid_candidate_aborts_swap (fs : FileSystem)
    (tempPath activePath backupPath : String)
    (hbad : dictGet fs tempPath = none ∨
      ∃ f, dictGet fs tempPath = some f ∧
        (f.integrityOk = false ∨ ∃ t ∈ requiredTables, f.tables.contains t = false)) :
    (∃ msg, (swapDatabases fs tempPath activePath backupPath).err =
      some (.integrityCheckError msg)) ∧
    (swapDatabases fs tempPath activePath backupPath).fs = fs ∧
    dictGet (swapDatabases fs tempPath activePath backupPath).fs activePath =
      dictGet fs activePath := by
  have hchk : ∃ msg, checkDbIntegrity fs tempPath =
      .error (.integrityCheckError msg) := by
    unfold checkDbIntegrity
    rcases hbad with hnone | ⟨f, hf, hbad⟩
    · rw [hnone]
      exact ⟨"Database file does not exist", rfl⟩
    · rw [hf]
      cases hio : f.integrityOk with
      | false => exact ⟨"Database integrity check failed", by simp [hio]⟩
      | true =>
        rcases hbad with hint | ⟨t, ht, htab⟩
        · rw [hio] at hint
          cases hint
        · have hmem : t ∉ f.tables := by simpa using htab
          have hallP : ¬ ∀ x ∈ requiredTables, x ∈ f.tables :=
            fun hall => hmem (hall t ht)
          exact ⟨"Missing required tables", by simp [hio, hallP]⟩
  obtain ⟨msg, hmsg⟩ := hchk
  refine ⟨⟨msg, ?_⟩, ?_, ?_⟩ <;> simp [swapDatabases, hmsg]

/-- C3 witness: a concrete candidate store passing `PRAGMA
integrity_check` but missing the `vec_chunks` table, next to a live
store, instantiating the abort theorem. -/
theorem C3_witness :
    (∃ msg,
      (swapDatabases
        [("docs.db.new", ⟨true, ["chunks", "metadata"]⟩),
         ("docs.db", ⟨true, ["chunks", "vec_chunks", "metadata"]⟩)]
        "docs.db.new" "docs.db" "docs.db.backup-1").err =
        some (.integrityCheckError msg)) ∧
    (swapDatabases
      [("docs.db.new", ⟨true, ["chunks", "metadata"]⟩),
       ("docs.db", ⟨true, ["chunks", "vec_chunks", "metadata"]⟩)]
      "docs.db.new" "docs.db" "docs.db.backup-1").fs =
      [("docs.db.new", ⟨true, ["chunks", "metadata"]⟩),
       ("docs.db", ⟨true, ["chunks", "vec_chunks", "metadata"]⟩)] ∧
    dictGet (swapDatabases
      [("docs.db.new", ⟨true, ["chunks", "metadata"]⟩),
       ("docs.db", ⟨true, ["chunks", "vec_chunks", "metadata"]⟩)]
      "docs.db.new" "docs.db" "docs.db.backup-1").fs "docs.db" =
      dictGet
        [("docs.db.new", ⟨true, ["chunks", "metadata"]⟩),
         ("docs.db", ⟨true, ["chunks", "vec_chunks", "metadata"]⟩)] "docs.db" :=
  C3_invalid_candidate_aborts_swap _ _ _ _
    (Or.inr ⟨⟨true, ["chunks", "metadata"]⟩, by decide,
      Or.inr ⟨"vec_chunks", by decide, by decide⟩⟩)

/-! ## RefreshOrchestrator (src/services/refresh_orchestrator.py) -/

/-- Outcome fields of `RefreshResult` (src/models/refresh_config.py)
relevant to the refresh claims: the success flag and the error string. -/
structure RefreshResultM where
  success : Bool
  error : Option String
  deriving Repr, DecidableEq

/-- Formal parameter names of `DatabaseManager.swap_databases`
(db_manager.py line 67): `def swap_databases(self, temp_path, active_path)`. -/
def swapDatabasesParams : List String := ["temp_path", "active_path"]

/-- The keyword arguments passed at the `swap_databases` call site inside
`RefreshOrchestrator.refresh_once` (refresh_orchestrator.py lines
116-120): `temp_path=…, active_path=…, lock=…`. -/
def refreshSwapCallKwargs : List String := ["temp_path", "active_path", "lock"]

/-- Python keyword-argument binding for a call with keyword arguments
only: every keyword must name a formal parameter, and every formal
parameter (none has a default here) must be bound; otherwise the call
raises `TypeError`. -/
def kwargsBind (params kwargs : List String) : Bool :=
  kwargs.all (fun k => params.contains k) && params.all (fun p => kwargs.contains p)

/-- The inputs of one refresh cycle that the environment decides: whether
the build pipeline completes without raising, whether the candidate
store passes the integrity check, and whether the swap renames succeed. -/
structure RefreshEnv where
  buildOk : Bool
  integrityOk : Bool
  swapRenameOk : Bool

/-- `RefreshOrchestrator.refresh_once` (refresh_orchestrator.py lines
78-147).  Every exception in the body is caught and converted into a
failed `RefreshResult`.  The `swap_databases` invocation passes the
keyword arguments `temp_path`, `active_path` and `lock`, which Python
binds against the formal parameters of `DatabaseManager.swap_databases`
before the method body can run. -/
def refreshOnce (env : RefreshEnv) : RefreshResultM :=
  if !env.buildOk then
    { success := false, error := some "build failed" }
  else if !kwargsBind swapDatabasesParams refreshSwapCallKwargs then
    { success := false
      error := some "TypeError: swap_databases() got an unexpected keyword argument" }
  else if !env.integrityOk then
    { success := false, error := some "IntegrityCheckError" }
  else if !env.swapRenameOk then
    { success := false, error := some "Database swap failed" }
  else
    { success := true, error := none }

/-- C1 (divergence): in every refresh cycle in which the build pipeline
completes successfully and the candidate store would pass the integrity
check, `refresh_once` still returns a `RefreshResult` with
`success = false` and an error message, because the `swap_databases`
call passes the unexpected keyword argument `lock` and raises
`TypeError` before the swap can start.  This contradicts the claim (and
the repository's own test `test_successful_refresh_cycle`). -/
theorem C1_successful_cycle_still_fails (env : RefreshEnv)
    (hbuild : env.buildOk = true) (_hintegrity : env.integrityOk = true)
    (_hswap : env.swapRenameOk = true) :
    (refreshOnce env).success = false ∧ (refreshOnce env).error ≠ none := by
  have hbind : kwargsBind swapDatabasesParams refreshSwapCallKwargs = false := by
    decide
  simp [refreshOnce, hbuild, hbind]

/-- C1 witness: the divergence theorem instantiated at the concrete
environment where build, integrity check and renames would all succeed. -/
theorem C1_witness :
    (refreshOnce ⟨true, true, true⟩).success = false ∧
    (refreshOnce ⟨true, true, true⟩).error ≠ none :=
  C1_successful_cycle_still_fails ⟨true, true, true⟩ rfl rfl rfl

/-! ## VectorStore (src/services/vector_store.py) -/

/-- The persisted state of the SQLite store: the `chunks` table keyed by
id (its columns coincide with the chunk fields; `created_at` round-trips
exactly through isoformat), the `vec_chunks` vec0 rows, the
`chunk_embeddings_metadata` rows, and the `chunks_fts` rows (FTS5 has no
unique constraint, so its rows are appended). -/
structure StoreState where
  chunks : List (String × DocumentationChunk)
  vecChunks : List (String × List ℚ)
  embMeta : List (String × String)
  fts : List (String × String × String × Option String)
  deriving DecidableEq

/-- `VectorStore.insert_chunk` (vector_store.py lines 184-267): validate
the embedding dimension first, then run the four `INSERT OR REPLACE`
statements and commit.  Any error before the commit leaves nothing
observable (the per-operation connection closes without committing),
which the error case models; the sqlite `CHECK(token_count > 0)`
constraint belongs to the chunks schema (vector_store.py line 122). -/
def insertChunk (dim : Nat) (modelName : String) (s : StoreState)
    (c : DocumentationChunk) (emb : List ℚ) : Except String StoreState :=
  if emb.length ≠ dim then
    .error "Embedding dimension mismatch"
  else if c.token_count = 0 then
    .error "CHECK constraint failed: token_count"
  else
    .ok { chunks := dictSet s.chunks c.id c
          vecChunks := dictSet s.vecChunks c.id emb
          embMeta := dictSet s.embMeta c.id modelName
          fts := s.fts ++ [(c.id, c.content, c.source_file, c.section_heading)] }

/-- The store a subsequent read observes after a write attempt: the new
state on success, the unchanged prior state on error. -/
def afterWrite (r : Except String StoreState) (s : StoreState) : StoreState :=
  match r with
  | .ok s' => s'
  | .error _ => s

/-- `VectorStore.get_chunk` (vector_store.py lines 338-376): point lookup
in the chunks table; a found row is rebuilt through the validating
`DocumentationChunk` constructor, an absent id yields `None`. -/
def getChunk (s : StoreState) (id : String) :
    Except String (Option DocumentationChunk) :=
  match dictGet s.chunks id with
  | none => .ok none
  | some c => do
    let c' ← mkChunk c.id c.content c.source_file c.section_heading
      c.chunk_position c.token_count c.created_at
    pure (some c')

/-- C4: an embedding whose length differs from the configured dimension
makes `insert_chunk` fail with the dimension-mismatch error and no
partial write is observable by subsequent reads: the chunk row, the
vector-index entry, the lexical-index entry (and the embedding-metadata
row) are all exactly as before the call. -/
theorem C4_dim_mismatch_no_partial_write (dim : Nat) (modelName : String)
    (s : StoreState) (c : DocumentationChunk) (emb : List ℚ)
    (h : emb.length ≠ dim) :
    insertChunk dim modelName s c emb = .error "Embedding dimension mismatch" ∧
    afterWrite (insertChunk dim modelName s c emb) s = s := by
  constructor <;> simp [insertChunk, h, afterWrite]

/-- C4 witness: inserting a two-entry embedding into a store configured
for dimension 3 fails and leaves the empty store unchanged. -/
theorem C4_witness :
    insertChunk 3 "bge-small" ⟨[], [], [], []⟩
      ⟨"a", "text", "f.md", none, 0, 1, 0⟩ [1, 2] =
      .error "Embedding dimension mismatch" ∧
    afterWrite (insertChunk 3 "bge-small" ⟨[], [], [], []⟩
      ⟨"a", "text", "f.md", none, 0, 1, 0⟩ [1, 2]) ⟨[], [], [], []⟩ =
      ⟨[], [], [], []⟩ :=
  C4_dim_mismatch_no_partial_write 3 "bge-small" _ _ _ (by decide)

/-- C9: inserting a validated chunk with an embedding of the configured
dimension and then reading back the same id returns a chunk equal in
all fields (id, content, source_file, section_heading, chunk_position,
token_count, created_at) to the one inserted. -/
theorem C9_insert_get_roundtrip (dim : Nat) (modelName : String)
    (s : StoreState) (c : DocumentationChunk) (emb : List ℚ)
    (hdim : emb.length = dim) (hwf : chunkValid c) :
    ∃ s', insertChunk dim modelName s c emb = .ok s' ∧
      getChunk s' c.id = .ok (some c) := by
  have htok : c.token_count ≠ 0 := Nat.pos_iff_ne_zero.mp hwf.2
  have hins : insertChunk dim modelName s c emb = .ok
      { chunks := dictSet s.chunks c.id c
        vecChunks := dictSet s.vecChunks c.id emb
        embMeta := dictSet s.embMeta c.id modelName
        fts := s.fts ++ [(c.id, c.content, c.source_file, c.section_heading)] } := by
    simp [insertChunk, hdim, htok]
  refine ⟨_, hins, ?_⟩
  unfold getChunk
  rw [dictGet_set_self]
  have hmk : mkChunk c.id c.content c.source_file c.section_heading
      c.chunk_position c.token_count c.created_at = .ok c := by
    unfold mkChunk
    rw [if_pos hwf]
  show (mkChunk c.id c.content c.source_file c.section_heading c.chunk_position
      c.token_count c.created_at >>= fun c' => pure (some c')) = Except.ok (some c)
  rw [hmk, exceptBind_ok, exceptPure_eq]

/-- C9 witness: the round trip instantiated on a concrete chunk and
embedding in the empty store. -/
theorem C9_witness :
    ∃ s', insertChunk 2 "bge-small" ⟨[], [], [], []⟩
        ⟨"a", "text", "f.md", none, 0, 1, 0⟩ [1, 2] = .ok s' ∧
      getChunk s' "a" = .ok (some ⟨"a", "text", "f.md", none, 0, 1, 0⟩) :=
  C9_insert_get_roundtrip 2 "bge-small" ⟨[], [], [], []⟩
    ⟨"a", "text", "f.md", none, 0, 1, 0⟩ [1, 2] (by decide) (by decide)

/-- Ascending-by-distance ordering, as produced by `ORDER BY v.distance`. -/
def distLE (a b : DocumentationChunk × ℚ) : Prop := a.2 ≤ b.2

instance : DecidableRel distLE := fun a b => by
  unfold distLE
  infer_instance

instance : IsTotal (DocumentationChunk × ℚ) distLE :=
  ⟨fun a b => le_total a.2 b.2⟩

instance : IsTrans (DocumentationChunk × ℚ) distLE :=
  ⟨fun _ _ _ hab hbc => le_trans hab hbc⟩

/-- The rows produced by the vec0 KNN query in `VectorStore.search`
(vector_store.py lines 302-314): every stored vector joined with its
chunk row, ordered by distance ascending, truncated to `k = limit`.
The distance metric is computed by the external sqlite_vec extension and
enters as the parameter `dist`. -/
def knnRows (dist : List ℚ → List ℚ → ℚ) (s : StoreState) (q : List ℚ)
    (limit : Nat) : List (DocumentationChunk × ℚ) :=
  (List.insertionSort distLE
    (s.vecChunks.filterMap fun p =>
      (dictGet s.chunks p.1).map fun c => (c, dist p.2 q))).take limit

/-- `VectorStore.search` (vector_store.py lines 269-336): validate the
query dimension, run the KNN query, convert each row's distance to
`similarity = 1 - distance / 2`. -/
def searchStore (dist : List ℚ → List ℚ → ℚ) (dim : Nat) (s : StoreState)
    (q : List ℚ) (limit : Nat) : Except String (List (DocumentationChunk × ℚ)) :=
  if q.length ≠ dim then .error "Query embedding dimension mismatch"
  else .ok ((knnRows dist s q limit).map fun p => (p.1, 1 - p.2 / 2))

theorem searchStore_ok (dist : List ℚ → List ℚ → ℚ) (dim : Nat) (s : StoreState)
    (q : List ℚ) (limit : Nat) (hdim : q.length = dim) :
    searchStore dist dim s q limit =
      .ok ((knnRows dist s q limit).map fun p => (p.1, 1 - p.2 / 2)) := by
  simp [searchStore, hdim]

theorem knnRows_sorted (dist : List ℚ → List ℚ → ℚ) (s : StoreState)
    (q : List ℚ) (limit : Nat) : (knnRows dist s q limit).Pairwise distLE :=
  (List.sorted_insertionSort distLE _).sublist (List.take_sublist limit _)

theorem knnRows_mem (dist : List ℚ → List ℚ → ℚ) (s : StoreState) (q : List ℚ)
    (limit : Nat) (p : DocumentationChunk × ℚ) (hp : p ∈ knnRows dist s q limit) :
    ∃ id v, (id, v) ∈ s.vecChunks ∧ dictGet s.chunks id = some p.1 ∧
      p.2 = dist v q := by
  unfold knnRows at hp
  have hmem := List.mem_of_mem_take hp
  rw [List.mem_insertionSort] at hmem
  obtain ⟨⟨id, v⟩, hvec, heq⟩ := List.mem_filterMap.1 hmem
  cases hq : dictGet s.chunks id with
  | none => rw [hq] at heq; cases heq
  | some c =>
    rw [hq] at heq
    injection heq with heq
    subst heq
    exact ⟨id, v, hvec, hq, rfl⟩

theorem searchStore_res_length (dist : List ℚ → List ℚ → ℚ) (dim : Nat)
    (s : StoreState) (q : List ℚ) (limit : Nat)
    (res : List (DocumentationChunk × ℚ)) (hdim : q.length = dim)
    (h : searchStore dist dim s q limit = .ok res) : res.length ≤ limit := by
  rw [searchStore_ok dist dim s q limit hdim] at h
  injection h with h
  subst h
  simp only [List.length_map, knnRows, List.length_take]
  omega

theorem searchStore_res_sorted (dist : List ℚ → List ℚ → ℚ) (dim : Nat)
    (s : StoreState) (q : List ℚ) (limit : Nat)
    (res : List (DocumentationChunk × ℚ)) (hdim : q.length = dim)
    (h : searchStore dist dim s q limit = .ok res) :
    res.Pairwise (fun a b => b.2 ≤ a.2) := by
  rw [searchStore_ok dist dim s q limit hdim] at h
  injection h with h
  subst h
  refine List.Pairwise.map _ ?_ (knnRows_sorted dist s q limit)
  intro a b hab
  simp only
  unfold distLE at hab
  linarith

theorem searchStore_res_mem (dist : List ℚ → List ℚ → ℚ) (dim : Nat)
    (s : StoreState) (q : List ℚ) (limit : Nat)
    (res : List (DocumentationChunk × ℚ)) (hdim : q.length = dim)
    (h : searchStore dist dim s q limit = .ok res) :
    ∀ p ∈ res, ∃ id v, (id, v) ∈ s.vecChunks ∧ dictGet s.chunks id = some p.1 ∧
      p.2 = 1 - dist v q / 2 := by
  rw [searchStore_ok dist dim s q limit hdim] at h
  injection h with h
  subst h
  intro p hp
  obtain ⟨p0, hp0, rfl⟩ := List.mem_map.1 hp
  obtain ⟨id, v, hvec, hchk, hd⟩ := knnRows_mem dist s q limit p0 hp0
  exact ⟨id, v, hvec, hchk, by rw [hd]⟩

/-- C5: for every query embedding of the configured dimension and every
limit, `search` returns at most `limit` (chunk, similarity) pairs,
sorted by non-increasing similarity, where each pair's similarity equals
`1 - distance/2` for the stored vector's distance to the query and lies
in [0, 1]; the distance metric is the external vec0 one, bounded to
[0, 2] as documented for cosine distance. -/
theorem C5_search_contract (dist : List ℚ → List ℚ → ℚ) (dim : Nat)
    (s : StoreState) (q : List ℚ) (limit : Nat)
    (res : List (DocumentationChunk × ℚ))
    (hdim : q.length = dim)
    (hdist : ∀ v w, 0 ≤ dist v w ∧ dist v w ≤ 2)
    (h : searchStore dist dim s q limit = .ok res) :
    res.length ≤ limit ∧
    res.Pairwise (fun a b => b.2 ≤ a.2) ∧
    ∀ p ∈ res, ∃ id v, (id, v) ∈ s.vecChunks ∧ dictGet s.chunks id = some p.1 ∧
      p.2 = 1 - dist v q / 2 ∧ 0 ≤ p.2 ∧ p.2 ≤ 1 := by
  refine ⟨searchStore_res_length dist dim s q limit res hdim h,
    searchStore_res_sorted dist dim s q limit res hdim h, ?_⟩
  intro p hp
  obtain ⟨id, v, hvec, hchk, hsim⟩ :=
    searchStore_res_mem dist dim s q limit res hdim h p hp
  obtain ⟨hd0, hd2⟩ := hdist v q
  exact ⟨id, v, hvec, hchk, hsim, by rw [hsim]; linarith, by rw [hsim]; linarith⟩

/-- C5 witness: the contract instantiated with a concrete store holding
one chunk and a constant distance metric valued 1 everywhere. -/
theorem C5_witness :
    [((⟨"a", "text", "f.md", none, 0, 1, 0⟩ : DocumentationChunk), (1 : ℚ) / 2)].length ≤ 5 ∧
    List.Pairwise (fun (a b : DocumentationChunk × ℚ) => b.2 ≤ a.2)
      [((⟨"a", "text", "f.md", none, 0, 1, 0⟩ : DocumentationChunk), (1 : ℚ) / 2)] ∧
    ∀ p ∈ [((⟨"a", "text", "f.md", none, 0, 1, 0⟩ : DocumentationChunk), (1 : ℚ) / 2)],
      ∃ id v,
        (id, v) ∈ ([("a", [1, 1])] : List (String × List ℚ)) ∧
        dictGet [("a", ⟨"a", "text", "f.md", none, 0, 1, 0⟩)] id = some p.1 ∧
        p.2 = 1 - (fun (_ _ : List ℚ) => (1 : ℚ)) v [0, 0] / 2 ∧ 0 ≤ p.2 ∧ p.2 ≤ 1 :=
  C5_search_contract (fun _ _ => 1) 2
    ⟨[("a", ⟨"a", "text", "f.md", none, 0, 1, 0⟩)], [("a", [1, 1])], [], []⟩
    [0, 0] 5 [(⟨"a", "text", "f.md", none, 0, 1, 0⟩, 1 / 2)]
    (by decide) (fun _ _ => by norm_num)
    (by simp [searchStore, knnRows, dictGet, List.insertionSort, List.orderedInsert]
        norm_num)

/-! ## SearchService (src/services/search.py) -/

/-- The `SearchResult` fields the search claims are about
(src/models/search_result.py lines 19-25). -/
structure SearchResultM where
  chunk : DocumentationChunk
  score : ℚ
  rank : Nat
  matchType : String
  deriving Repr, DecidableEq

/-- Python truthiness of `query.min_score` (`None` and `0.0` are falsy),
as tested by `if query.min_score and …` (search.py lines 48, 70, 101). -/
def minScoreTruthy : Option ℚ → Bool
  | none => false
  | some m => if m = 0 then false else true

/-- The semantic branch of `SearchService.query` (search.py lines 38-61):
enumerate the raw (chunk, score) results with 1-indexed rank, skipping a
result when `min_score` is truthy and the score is below it; the rank
advances with the enumeration whether or not a result is kept. -/
def semanticFormat (ms : Option ℚ) :
    List (DocumentationChunk × ℚ) → Nat → List SearchResultM
  | [], _ => []
  | (c, sc) :: rest, rank =>
    if minScoreTruthy ms ∧ sc < ms.getD 0 then
      semanticFormat ms rest (rank + 1)
    else
      ⟨c, sc, rank, "semantic"⟩ :: semanticFormat ms rest (rank + 1)

/-- The full semantic query path of `SearchService.query`: embed (the
query vector `q` stands for the embedder's output), search, format. -/
def semanticQuery (dist : List ℚ → List ℚ → ℚ) (dim : Nat) (s : StoreState)
    (q : List ℚ) (limit : Nat) (ms : Option ℚ) :
    Except String (List SearchResultM) := do
  let raw ← searchStore dist dim s q limit
  pure (semanticFormat ms raw 1)

/-- Descending-by-score ordering used by
`sorted(rrf_scores.items(), key=lambda x: x[1], reverse=True)`. -/
def scoreGE (a b : String × ℚ) : Prop := b.2 ≤ a.2

instance : DecidableRel scoreGE := fun a b => by
  unfold scoreGE
  infer_instance

instance : IsTotal (String × ℚ) scoreGE := ⟨fun a b => le_total b.2 a.2⟩

instance : IsTrans (String × ℚ) scoreGE :=
  ⟨fun _ _ _ hab hbc => le_trans hbc hab⟩

/-- The chunk ids of a ranked result list, in order. -/
def chunkIds (l : List (DocumentationChunk × ℚ)) : List String :=
  l.map fun p => p.1.id

/-- One pass of `_reciprocal_rank_fusion` over a ranked result list
(search.py lines 140-142 and 147-149): each id accumulates
`1 / (60 + rank)` with 1-indexed rank (the RRF constant k is 60). -/
def rrfAdd : List (String × ℚ) → List String → Nat → List (String × ℚ)
  | m, [], _ => m
  | m, id :: rest, rank =>
    rrfAdd (dictSet m id (dictGetD m id 0 + 1 / (60 + (rank : ℚ)))) rest (rank + 1)

/-- The `rrf_scores` dict after the semantic and keyword passes
(search.py lines 135-149). -/
def rrfScores (sem kw : List (DocumentationChunk × ℚ)) : List (String × ℚ) :=
  rrfAdd (rrfAdd [] (chunkIds sem) 1) (chunkIds kw) 1

/-- The semantic pass over `chunk_map` (search.py lines 140-144): the
first occurrence of an id records its chunk with label "semantic". -/
def chunkMapSem : List (String × DocumentationChunk × String) →
    List (DocumentationChunk × ℚ) → List (String × DocumentationChunk × String)
  | m, [] => m
  | m, (c, _) :: rest =>
    if dictContains m c.id then chunkMapSem m rest
    else chunkMapSem (dictSet m c.id (c, "semantic")) rest

/-- The keyword pass over `chunk_map` (search.py lines 147-154): a new id
is recorded with label "keyword"; an id already present is relabeled
"hybrid", keeping the previously stored chunk. -/
def chunkMapKw : List (String × DocumentationChunk × String) →
    List (DocumentationChunk × ℚ) → List (String × DocumentationChunk × String)
  | m, [] => m
  | m, (c, _) :: rest =>
    match dictGet m c.id with
    | none => chunkMapKw (dictSet m c.id (c, "keyword")) rest
    | some (c0, _) => chunkMapKw (dictSet m c.id (c0, "hybrid")) rest

/-- The `chunk_map` dict after both passes. -/
def chunkMap (sem kw : List (DocumentationChunk × ℚ)) :
    List (String × DocumentationChunk × String) :=
  chunkMapKw (chunkMapSem [] sem) kw

/-- `SearchService._reciprocal_rank_fusion` (search.py lines 116-174):
sort the accumulated scores descending, truncate to `limit`, renumber
ranks from 1, clip each reported score at 1.0, and attach the chunk and
match type recorded in `chunk_map`.  (The fallback row in the `none`
branch is unreachable: every scored id is in `chunk_map`.) -/
def reciprocalRankFusion (sem kw : List (DocumentationChunk × ℚ)) (limit : Nat) :
    List SearchResultM :=
  ((List.insertionSort scoreGE (rrfScores sem kw)).take limit).enum.map fun p =>
    match dictGet (chunkMap sem kw) p.2.1 with
    | some (c, t) => ⟨c, min p.2.2 1, p.1 + 1, t⟩
    | none => ⟨⟨"", "", "", none, 0, 1, 0⟩, min p.2.2 1, p.1 + 1, ""⟩

/-- The hybrid branch of `SearchService.query` after fusion
(search.py lines 85-102): apply the `min_score` filter when it is set
and nonzero. -/
def hybridQueryResults (sem kw : List (DocumentationChunk × ℚ)) (limit : Nat)
    (ms : Option ℚ) : List SearchResultM :=
  if minScoreTruthy ms then
    (reciprocalRankFusion sem kw limit).filter fun r => ms.getD 0 ≤ r.score
  else reciprocalRankFusion sem kw limit

theorem rrfAdd_getD_not_mem (ids : List String) (x : String) (hx : x ∉ ids) :
    ∀ m rank, dictGetD (rrfAdd m ids rank) x 0 = dictGetD m x 0 := by
  induction ids with
  | nil => intro m rank; rfl
  | cons id rest ih =>
    intro m rank
    have hne : id ≠ x := fun h => hx (h ▸ List.mem_cons_self id rest)
    rw [rrfAdd, ih (fun h => hx (List.mem_cons_of_mem _ h))]
    unfold dictGetD
    rw [dictGet_set_ne _ _ _ _ hne]

theorem rrfAdd_getD_mem (x : String) :
    ∀ (p : List String) (q : List String) (m : List (String × ℚ)) (rank : Nat),
      (p ++ x :: q).Nodup →
      dictGetD (rrfAdd m (p ++ x :: q) rank) x 0
        = dictGetD m x 0 + 1 / (60 + (rank : ℚ) + (p.length : ℚ)) := by
  intro p
  induction p with
  | nil =>
    intro q m rank hnd
    have hxq : x ∉ q := by
      rw [List.nil_append, List.nodup_cons] at hnd
      exact hnd.1
    rw [List.nil_append, rrfAdd, rrfAdd_getD_not_mem q x hxq]
    unfold dictGetD
    rw [dictGet_set_self]
    simp
  | cons a p ih =>
    intro q m rank hnd
    rw [List.cons_append, List.nodup_cons] at hnd
    have hax : a ≠ x := fun h => hnd.1 (by
      rw [h]
      exact List.mem_append_right p (List.mem_cons_self x q))
    rw [List.cons_append, rrfAdd, ih q _ (rank + 1) hnd.2]
    unfold dictGetD
    rw [dictGet_set_ne _ _ _ _ hax, List.length_cons]
    push_cast
    ring_nf

/-- The keys of an association list. -/
def dictKeys {α : Type} (m : List (String × α)) : List String := m.map (·.1)

theorem mem_dictKeys_set {α : Type} (m : List (String × α)) (k x : String) (v : α)
    (h : x ∈ dictKeys (dictSet m k v)) : x = k ∨ x ∈ dictKeys m := by
  induction m with
  | nil => simpa [dictSet, dictKeys] using h
  | cons p rest ih =>
    by_cases hp : p.1 = k
    · simp only [dictSet, if_pos hp, dictKeys, List.map_cons, List.mem_cons] at h ⊢
      tauto
    · simp only [dictSet, if_neg hp, dictKeys, List.map_cons, List.mem_cons] at h ⊢
      rcases h with h | h
      · tauto
      · have hrec := ih (by simpa [dictKeys] using h)
        simp only [dictKeys] at hrec
        tauto

theorem dictKeys_nodup_set {α : Type} (m : List (String × α)) (k : String) (v : α)
    (h : (dictKeys m).Nodup) : (dictKeys (dictSet m k v)).Nodup := by
  induction m with
  | nil => simp [dictSet, dictKeys]
  | cons p rest ih =>
    by_cases hp : p.1 = k
    · simpa [dictSet, hp, dictKeys] using h
    · rw [dictKeys, List.map_cons, List.nodup_cons] at h
      rw [dictSet, if_neg hp, dictKeys, List.map_cons, List.nodup_cons]
      refine ⟨fun hmem => ?_, ih h.2⟩
      rcases mem_dictKeys_set rest k p.1 v hmem with heq | hmem'
      · exact hp heq
      · exact h.1 hmem'

theorem mem_dictGetD {α : Type} (m : List (String × α)) (k : String) (v d : α)
    (hnd : (dictKeys m).Nodup) (hm : (k, v) ∈ m) : dictGetD m k d = v := by
  induction m with
  | nil => cases hm
  | cons p rest ih =>
    rw [dictKeys, List.map_cons, List.nodup_cons] at hnd
    rcases List.mem_cons.1 hm with heq | hmem
    · subst heq
      unfold dictGetD dictGet
      simp
    · have hk : k ∈ dictKeys rest := by
        simp only [dictKeys, List.mem_map]
        exact ⟨(k, v), hmem, rfl⟩
      have hne : p.1 ≠ k := fun h => hnd.1 (h ▸ hk)
      unfold dictGetD dictGet
      rw [if_neg hne]
      exact ih hnd.2 hmem

theorem rrfAdd_keys_nodup (ids : List String) :
    ∀ m rank, (dictKeys m).Nodup → (dictKeys (rrfAdd m ids rank)).Nodup := by
  induction ids with
  | nil => intro m rank h; exact h
  | cons id rest ih =>
    intro m rank h
    rw [rrfAdd]
    exact ih _ _ (dictKeys_nodup_set m id _ h)

theorem rrfAdd_keys_subset (ids : List String) :
    ∀ m rank x, x ∈ dictKeys (rrfAdd m ids rank) → x ∈ dictKeys m ∨ x ∈ ids := by
  induction ids with
  | nil => intro m rank x h; exact Or.inl h
  | cons id rest ih =>
    intro m rank x h
    rw [rrfAdd] at h
    rcases ih _ _ x h with h | h
    · rcases mem_dictKeys_set m id x _ h with heq | h
      · exact Or.inr (heq ▸ List.mem_cons_self id rest)
      · exact Or.inl h
    · exact Or.inr (List.mem_cons_of_mem _ h)

theorem rrfAdd_getD_bounds (ids : List String) (hnd : ids.Nodup) (x : String)
    (m : List (String × ℚ)) :
    dictGetD m x 0 ≤ dictGetD (rrfAdd m ids 1) x 0 ∧
    dictGetD (rrfAdd m ids 1) x 0 ≤ dictGetD m x 0 + 1 / 61 := by
  by_cases hx : x ∈ ids
  · obtain ⟨p, q, rfl⟩ := List.append_of_mem hx
    rw [rrfAdd_getD_mem x p q m 1 hnd]
    have hlen : (0 : ℚ) ≤ (p.length : ℚ) := Nat.cast_nonneg _
    have hpos : (0 : ℚ) < 60 + (1 : ℚ) + (p.length : ℚ) := by linarith
    constructor
    · have : (0 : ℚ) < 1 / (60 + (1 : ℚ) + (p.length : ℚ)) := by positivity
      linarith
    · have h61 : (1 : ℚ) / (60 + (1 : ℚ) + (p.length : ℚ)) ≤ 1 / 61 := by
        apply one_div_le_one_div_of_le
        · norm_num
        · linarith
      linarith
  · rw [rrfAdd_getD_not_mem ids x hx]
    constructor
    · exact le_refl _
    · linarith [show (0 : ℚ) ≤ 1 / 61 by norm_num]

theorem rrfScores_getD_nonneg_le (sem kw : List (DocumentationChunk × ℚ))
    (h1 : (chunkIds sem).Nodup) (h2 : (chunkIds kw).Nodup) (x : String) :
    0 ≤ dictGetD (rrfScores sem kw) x 0 ∧
    dictGetD (rrfScores sem kw) x 0 ≤ 2 / 61 := by
  have hbase : dictGetD ([] : List (String × ℚ)) x 0 = 0 := rfl
  have b1 := rrfAdd_getD_bounds (chunkIds sem) h1 x []
  have b2 := rrfAdd_getD_bounds (chunkIds kw) h2 x (rrfAdd [] (chunkIds sem) 1)
  unfold rrfScores
  rw [hbase] at b1
  constructor <;> [linarith [b1.1, b2.1]; linarith [b1.2, b2.2]]

theorem chunkMapSem_preserved (sem : List (DocumentationChunk × ℚ)) :
    ∀ m x v, dictGet m x = some v → dictGet (chunkMapSem m sem) x = some v := by
  induction sem with
  | nil => intro m x v h; exact h
  | cons p rest ih =>
    intro m x v h
    obtain ⟨c, sc⟩ := p
    by_cases hdc : dictContains m c.id
    · simp only [chunkMapSem, hdc, if_true]
      exact ih m x v h
    · simp only [chunkMapSem, hdc, Bool.false_eq_true, if_false]
      apply ih
      have hne : c.id ≠ x := by
        rintro rfl
        rw [dictContains, h] at hdc
        simp at hdc
      rw [dictGet_set_ne _ _ _ _ hne]
      exact h

theorem chunkMapSem_adds (sem : List (DocumentationChunk × ℚ)) :
    ∀ m x, dictGet m x = none → x ∈ chunkIds sem →
      ∃ c0, dictGet (chunkMapSem m sem) x = some (c0, "semantic") ∧ c0.id = x := by
  induction sem with
  | nil => intro m x _ hx; cases hx
  | cons p rest ih =>
    intro m x h hx
    obtain ⟨c, sc⟩ := p
    by_cases hcx : c.id = x
    · subst hcx
      have hdc : dictContains m c.id = false := by
        rw [dictContains, h]
        rfl
      simp only [chunkMapSem, hdc, Bool.false_eq_true, if_false]
      exact ⟨c, chunkMapSem_preserved rest _ c.id _ (dictGet_set_self m c.id _), rfl⟩
    · have hx' : x ∈ chunkIds rest := by
        rcases List.mem_cons.1 hx with heq | hmem
        · exact absurd heq.symm hcx
        · exact hmem
      by_cases hdc : dictContains m c.id
      · simp only [chunkMapSem, hdc, if_true]
        exact ih m x h hx'
      · simp only [chunkMapSem, hdc, Bool.false_eq_true, if_false]
        apply ih
        · rw [dictGet_set_ne _ _ _ _ hcx]
          exact h
        · exact hx'

theorem chunkMapSem_none (sem : List (DocumentationChunk × ℚ)) :
    ∀ m x, dictGet m x = none → x ∉ chunkIds sem →
      dictGet (chunkMapSem m sem) x = none := by
  induction sem with
  | nil => intro m x h _; exact h
  | cons p rest ih =>
    intro m x h hx
    obtain ⟨c, sc⟩ := p
    have hcx : c.id ≠ x := fun heq => hx (heq ▸ List.mem_cons_self _ _)
    have hx' : x ∉ chunkIds rest := fun hmem => hx (List.mem_cons_of_mem _ hmem)
    by_cases hdc : dictContains m c.id
    · simp only [chunkMapSem, hdc, if_true]
      exact ih m x h hx'
    · simp only [chunkMapSem, hdc, Bool.false_eq_true, if_false]
      apply ih
      · rw [dictGet_set_ne _ _ _ _ hcx]
        exact h
      · exact hx'

theorem chunkMapKw_not_mem (kw : List (DocumentationChunk × ℚ)) :
    ∀ m x, x ∉ chunkIds kw → dictGet (chunkMapKw m kw) x = dictGet m x := by
  induction kw with
  | nil => intro m x _; rfl
  | cons p rest ih =>
    intro m x hx
    obtain ⟨c, sc⟩ := p
    have hcx : c.id ≠ x := fun heq => hx (heq ▸ List.mem_cons_self _ _)
    have hx' : x ∉ chunkIds rest := fun hmem => hx (List.mem_cons_of_mem _ hmem)
    cases hdc : dictGet m c.id with
    | none =>
      simp only [chunkMapKw, hdc]
      rw [ih _ x hx', dictGet_set_ne _ _ _ _ hcx]
    | some v =>
      obtain ⟨c0, t⟩ := v
      simp only [chunkMapKw, hdc]
      rw [ih _ x hx', dictGet_set_ne _ _ _ _ hcx]

theorem chunkMapKw_hybrid (kw : List (DocumentationChunk × ℚ)) :
    ∀ m x c0 t, (chunkIds kw).Nodup → x ∈ chunkIds kw →
      dictGet m x = some (c0, t) →
      dictGet (chunkMapKw m kw) x = some (c0, "hybrid") := by
  induction kw with
  | nil => intro m x c0 t _ hx; cases hx
  | cons p rest ih =>
    intro m x c0 t hnd hx h
    obtain ⟨c, sc⟩ := p
    have hnd' := (List.nodup_cons.1 hnd).2
    by_cases hcx : c.id = x
    · subst hcx
      simp only [chunkMapKw, h]
      have hrest : c.id ∉ chunkIds rest := (List.nodup_cons.1 hnd).1
      rw [chunkMapKw_not_mem rest _ c.id hrest, dictGet_set_self]
    · have hx' : x ∈ chunkIds rest := by
        rcases List.mem_cons.1 hx with heq | hmem
        · exact absurd heq.symm hcx
        · exact hmem
      cases hdc : dictGet m c.id with
      | none =>
        simp only [chunkMapKw, hdc]
        exact ih _ x c0 t hnd' hx' (by rw [dictGet_set_ne _ _ _ _ hcx]; exact h)
      | some v =>
        obtain ⟨c1, t1⟩ := v
        simp only [chunkMapKw, hdc]
        exact ih _ x c0 t hnd' hx' (by rw [dictGet_set_ne _ _ _ _ hcx]; exact h)

theorem chunkMapKw_keyword (kw : List (DocumentationChunk × ℚ)) :
    ∀ m x, (chunkIds kw).Nodup → x ∈ chunkIds kw → dictGet m x = none →
      ∃ c0, dictGet (chunkMapKw m kw) x = some (c0, "keyword") ∧ c0.id = x := by
  induction kw with
  | nil => intro m x _ hx; cases hx
  | cons p rest ih =>
    intro m x hnd hx h
    obtain ⟨c, sc⟩ := p
    have hnd' := (List.nodup_cons.1 hnd).2
    by_cases hcx : c.id = x
    · subst hcx
      simp only [chunkMapKw, h]
      have hrest : c.id ∉ chunkIds rest := (List.nodup_cons.1 hnd).1
      exact ⟨c, by rw [chunkMapKw_not_mem rest _ c.id hrest, dictGet_set_self], rfl⟩
    · have hx' : x ∈ chunkIds rest := by
        rcases List.mem_cons.1 hx with heq | hmem
        · exact absurd heq.symm hcx
        · exact hmem
      cases hdc : dictGet m c.id with
      | none =>
        simp only [chunkMapKw, hdc]
        exact ih _ x hnd' hx' (by rw [dictGet_set_ne _ _ _ _ hcx]; exact h)
      | some v =>
        obtain ⟨c1, t1⟩ := v
        simp only [chunkMapKw, hdc]
        exact ih _ x hnd' hx' (by rw [dictGet_set_ne _ _ _ _ hcx]; exact h)

/-- C6: in Reciprocal Rank Fusion, a chunk at 1-indexed rank `r1` in the
semantic list and `r2` in the keyword list accumulates `1/(60+rank)` from
each list, summed, and is labeled "hybrid"; the sum is strictly greater
than either single contribution (the score it would receive at the same
rank in only one of the two lists); a chunk in only one list keeps that
list's match-type label. -/
theorem C6_rrf_additivity_and_labels (sem kw : List (DocumentationChunk × ℚ))
    (c : DocumentationChunk) (p1 q1 p2 q2 : List String) (r1 r2 : Nat)
    (h1 : (chunkIds sem).Nodup) (h2 : (chunkIds kw).Nodup)
    (hs : chunkIds sem = p1 ++ c.id :: q1)
    (hk : chunkIds kw = p2 ++ c.id :: q2)
    (hr1 : r1 = p1.length + 1) (hr2 : r2 = p2.length + 1) :
    dictGetD (rrfScores sem kw) c.id 0
      = 1 / (60 + (r1 : ℚ)) + 1 / (60 + (r2 : ℚ)) ∧
    1 / (60 + (r1 : ℚ)) < dictGetD (rrfScores sem kw) c.id 0 ∧
    1 / (60 + (r2 : ℚ)) < dictGetD (rrfScores sem kw) c.id 0 ∧
    (∃ c0, dictGet (chunkMap sem kw) c.id = some (c0, "hybrid")) ∧
    (∀ d : DocumentationChunk, d.id ∈ chunkIds sem → d.id ∉ chunkIds kw →
      ∃ c0, dictGet (chunkMap sem kw) d.id = some (c0, "semantic")) ∧
    (∀ d : DocumentationChunk, d.id ∉ chunkIds sem → d.id ∈ chunkIds kw →
      ∃ c0, dictGet (chunkMap sem kw) d.id = some (c0, "keyword")) := by
  have hsc : dictGetD (rrfScores sem kw) c.id 0
      = 1 / (60 + (r1 : ℚ)) + 1 / (60 + (r2 : ℚ)) := by
    unfold rrfScores
    rw [hk, rrfAdd_getD_mem c.id p2 q2 _ 1 (hk ▸ h2),
      hs, rrfAdd_getD_mem c.id p1 q1 [] 1 (hs ▸ h1)]
    have hbase : dictGetD ([] : List (String × ℚ)) c.id 0 = 0 := rfl
    rw [hbase, hr1, hr2]
    push_cast
    ring
  have hpos1 : (0 : ℚ) < 1 / (60 + (r1 : ℚ)) := by positivity
  have hpos2 : (0 : ℚ) < 1 / (60 + (r2 : ℚ)) := by positivity
  refine ⟨hsc, by rw [hsc]; linarith, by rw [hsc]; linarith, ?_, ?_, ?_⟩
  · have hmemS : c.id ∈ chunkIds sem := by
      rw [hs]
      exact List.mem_append_right _ (List.mem_cons_self _ _)
    have hmemK : c.id ∈ chunkIds kw := by
      rw [hk]
      exact List.mem_append_right _ (List.mem_cons_self _ _)
    obtain ⟨c0, hc0, _⟩ := chunkMapSem_adds sem [] c.id rfl hmemS
    exact ⟨c0, chunkMapKw_hybrid kw _ c.id c0 "semantic" h2 hmemK hc0⟩
  · intro d hdS hdK
    obtain ⟨c0, hc0, _⟩ := chunkMapSem_adds sem [] d.id rfl hdS
    refine ⟨c0, ?_⟩
    unfold chunkMap
    rw [chunkMapKw_not_mem kw _ d.id hdK]
    exact hc0
  · intro d hdS hdK
    have hnone : dictGet (chunkMapSem [] sem) d.id = none :=
      chunkMapSem_none sem [] d.id rfl hdS
    obtain ⟨c0, hc0, _⟩ := chunkMapKw_keyword kw _ d.id h2 hdK hnone
    exact ⟨c0, hc0⟩

/-- C6 witness: the additivity and labeling instantiated on concrete
two-element semantic and one-element keyword result lists sharing the
chunk with id "b". -/
theorem C6_witness :
    dictGetD (rrfScores
        [(⟨"a", "x", "f", none, 0, 1, 0⟩, 9/10), (⟨"b", "y", "f", none, 0, 1, 0⟩, 8/10)]
        [(⟨"b", "y", "f", none, 0, 1, 0⟩, 7/10)]) "b" 0
      = 1 / (60 + ((2 : Nat) : ℚ)) + 1 / (60 + ((1 : Nat) : ℚ)) ∧
    1 / (60 + ((2 : Nat) : ℚ)) < dictGetD (rrfScores
        [(⟨"a", "x", "f", none, 0, 1, 0⟩, 9/10), (⟨"b", "y", "f", none, 0, 1, 0⟩, 8/10)]
        [(⟨"b", "y", "f", none, 0, 1, 0⟩, 7/10)]) "b" 0 ∧
    1 / (60 + ((1 : Nat) : ℚ)) < dictGetD (rrfScores
        [(⟨"a", "x", "f", none, 0, 1, 0⟩, 9/10), (⟨"b", "y", "f", none, 0, 1, 0⟩, 8/10)]
        [(⟨"b", "y", "f", none, 0, 1, 0⟩, 7/10)]) "b" 0 ∧
    (∃ c0, dictGet (chunkMap
        [(⟨"a", "x", "f", none, 0, 1, 0⟩, 9/10), (⟨"b", "y", "f", none, 0, 1, 0⟩, 8/10)]
        [(⟨"b", "y", "f", none, 0, 1, 0⟩, 7/10)]) "b" = some (c0, "hybrid")) ∧
    (∀ d : DocumentationChunk,
      d.id ∈ chunkIds [(⟨"a", "x", "f", none, 0, 1, 0⟩, 9/10),
        (⟨"b", "y", "f", none, 0, 1, 0⟩, 8/10)] →
      d.id ∉ chunkIds [(⟨"b", "y", "f", none, 0, 1, 0⟩, 7/10)] →
      ∃ c0, dictGet (chunkMap
        [(⟨"a", "x", "f", none, 0, 1, 0⟩, 9/10), (⟨"b", "y", "f", none, 0, 1, 0⟩, 8/10)]
        [(⟨"b", "y", "f", none, 0, 1, 0⟩, 7/10)]) d.id = some (c0, "semantic")) ∧
    (∀ d : DocumentationChunk,
      d.id ∉ chunkIds [(⟨"a", "x", "f", none, 0, 1, 0⟩, 9/10),
        (⟨"b", "y", "f", none, 0, 1, 0⟩, 8/10)] →
      d.id ∈ chunkIds [(⟨"b", "y", "f", none, 0, 1, 0⟩, 7/10)] →
      ∃ c0, dictGet (chunkMap
        [(⟨"a", "x", "f", none, 0, 1, 0⟩, 9/10), (⟨"b", "y", "f", none, 0, 1, 0⟩, 8/10)]
        [(⟨"b", "y", "f", none, 0, 1, 0⟩, 7/10)]) d.id = some (c0, "keyword")) :=
  C6_rrf_additivity_and_labels
    [(⟨"a", "x", "f", none, 0, 1, 0⟩, 9/10), (⟨"b", "y", "f", none, 0, 1, 0⟩, 8/10)]
    [(⟨"b", "y", "f", none, 0, 1, 0⟩, 7/10)]
    ⟨"b", "y", "f", none, 0, 1, 0⟩ ["a"] [] [] [] 2 1
    (by decide) (by decide) rfl rfl rfl rfl

theorem semanticFormat_all_skip (ms : Option ℚ) :
    ∀ raw : List (DocumentationChunk × ℚ),
      (∀ p ∈ raw, minScoreTruthy ms ∧ p.2 < ms.getD 0) →
      ∀ rank, semanticFormat ms raw rank = [] := by
  intro raw
  induction raw with
  | nil => intro _ rank; rfl
  | cons p rest ih =>
    intro h rank
    obtain ⟨c, sc⟩ := p
    have hp := h (c, sc) (List.mem_cons_self _ _)
    rw [semanticFormat, if_pos hp]
    exact ih (fun p hp' => h p (List.mem_cons_of_mem _ hp')) (rank + 1)

theorem semanticFormat_ranks (ms : Option ℚ) :
    ∀ raw : List (DocumentationChunk × ℚ),
      raw.Pairwise (fun a b => b.2 ≤ a.2) →
      ∀ rank, (semanticFormat ms raw rank).map (fun r => r.rank)
        = List.range' rank (semanticFormat ms raw rank).length := by
  intro raw
  induction raw with
  | nil => intro _ rank; rfl
  | cons p rest ih =>
    intro hsorted rank
    obtain ⟨c, sc⟩ := p
    rw [List.pairwise_cons] at hsorted
    by_cases hcond : (minScoreTruthy ms ∧ sc < ms.getD 0)
    · have hempty : semanticFormat ms rest (rank + 1) = [] := by
        apply semanticFormat_all_skip ms rest
        intro p hp
        exact ⟨hcond.1, lt_of_le_of_lt (hsorted.1 p hp) hcond.2⟩
      rw [semanticFormat, if_pos hcond, hempty]
      rfl
    · rw [semanticFormat, if_neg hcond]
      rw [List.map_cons, ih hsorted.2 (rank + 1), List.length_cons,
        List.range'_succ]

theorem semanticFormat_min_filter (ms : Option ℚ) :
    ∀ raw : List (DocumentationChunk × ℚ), (∀ p ∈ raw, 0 ≤ p.2) →
      ∀ rank r, r ∈ semanticFormat ms raw rank →
        ∀ m, ms = some m → m ≤ r.score := by
  intro raw
  induction raw with
  | nil => intro _ rank r hr; cases hr
  | cons p rest ih =>
    intro hpos rank r hr m hms
    obtain ⟨c, sc⟩ := p
    by_cases hcond : (minScoreTruthy ms ∧ sc < ms.getD 0)
    · rw [semanticFormat, if_pos hcond] at hr
      exact ih (fun p hp => hpos p (List.mem_cons_of_mem _ hp)) (rank + 1) r hr m hms
    · rw [semanticFormat, if_neg hcond] at hr
      rcases List.mem_cons.1 hr with heq | hmem
      · subst hms
        subst heq
        show m ≤ sc
        by_cases hm0 : m = 0
        · subst hm0
          exact hpos (c, sc) (List.mem_cons_self _ _)
        · have htruthy : minScoreTruthy (some m) = true := by
            simp [minScoreTruthy, hm0]
          have hnlt : ¬ sc < (some m).getD 0 := fun hlt => hcond ⟨htruthy, hlt⟩
          simpa using not_lt.1 hnlt
      · exact ih (fun p hp => hpos p (List.mem_cons_of_mem _ hp)) (rank + 1) r hmem m hms

theorem searchStore_res_nonneg (dist : List ℚ → List ℚ → ℚ) (dim : Nat)
    (s : StoreState) (q : List ℚ) (limit : Nat)
    (res : List (DocumentationChunk × ℚ)) (hdim : q.length = dim)
    (hdist : ∀ v w, 0 ≤ dist v w ∧ dist v w ≤ 2)
    (h : searchStore dist dim s q limit = .ok res) : ∀ p ∈ res, 0 ≤ p.2 := by
  intro p hp
  obtain ⟨id, v, _, _, hsim⟩ :=
    searchStore_res_mem dist dim s q limit res hdim h p hp
  obtain ⟨_, hd2⟩ := hdist v q
  rw [hsim]
  linarith

/-- C7: for every semantic query with `min_score` set, the returned
results contain no result scoring below `min_score`, and the surviving
results carry 1-indexed ranks with no gaps (the i-th returned result has
rank i): dropped results form a suffix of the similarity-sorted raw
results, so skipping them never creates a rank gap. -/
theorem C7_semantic_min_score_and_ranks (dist : List ℚ → List ℚ → ℚ) (dim : Nat)
    (s : StoreState) (q : List ℚ) (limit : Nat) (m : ℚ)
    (out : List SearchResultM)
    (hdim : q.length = dim)
    (hdist : ∀ v w, 0 ≤ dist v w ∧ dist v w ≤ 2)
    (h : semanticQuery dist dim s q limit (some m) = .ok out) :
    (∀ r ∈ out, m ≤ r.score) ∧
    out.map (fun r => r.rank) = List.range' 1 out.length := by
  unfold semanticQuery at h
  have hok := searchStore_ok dist dim s q limit hdim
  rw [hok, exceptBind_ok, exceptPure_eq] at h
  injection h with h
  subst h
  have hsorted := searchStore_res_sorted dist dim s q limit _ hdim hok
  have hnonneg := searchStore_res_nonneg dist dim s q limit _ hdim hdist hok
  constructor
  · intro r hr
    exact semanticFormat_min_filter (some m) _ hnonneg 1 r hr m rfl
  · exact semanticFormat_ranks (some m) _ hsorted 1

/-- C7 witness: a semantic query against a one-chunk store with
`min_score = 1/4`, instantiating the filter and rank contract. -/
theorem C7_witness :
    (∀ r ∈ [(⟨⟨"a", "text", "f.md", none, 0, 1, 0⟩, 1/2, 1, "semantic"⟩ : SearchResultM)],
      (1 : ℚ) / 4 ≤ r.score) ∧
    [(⟨⟨"a", "text", "f.md", none, 0, 1, 0⟩, 1/2, 1, "semantic"⟩ :
        SearchResultM)].map (fun r => r.rank)
      = List.range' 1 [(⟨⟨"a", "text", "f.md", none, 0, 1, 0⟩, 1/2, 1, "semantic"⟩ :
        SearchResultM)].length :=
  C7_semantic_min_score_and_ranks (fun _ _ => 1) 2
    ⟨[("a", ⟨"a", "text", "f.md", none, 0, 1, 0⟩)], [("a", [1, 1])], [], []⟩
    [0, 0] 5 (1/4) [⟨⟨"a", "text", "f.md", none, 0, 1, 0⟩, 1/2, 1, "semantic"⟩]
    (by decide) (fun _ _ => by norm_num)
    (by simp [semanticQuery, searchStore, knnRows, dictGet, List.insertionSort,
          List.orderedInsert, semanticFormat, minScoreTruthy]
        norm_num [semanticFormat, minScoreTruthy])

/-- C10: with duplicate-free result lists, every fused hybrid score is at
most `2/61` (two contributions of at most `1/(60+1)` each), so the
`min(score, 1.0)` clip never changes a score, and any `min_score`
strictly above `2/61` filters out every hybrid result, even when both
underlying searches returned matches. -/
theorem C10_hybrid_score_cap (sem kw : List (DocumentationChunk × ℚ))
    (limit : Nat) (m : ℚ)
    (h1 : (chunkIds sem).Nodup) (h2 : (chunkIds kw).Nodup)
    (hm : 2 / 61 < m) :
    (∀ r ∈ reciprocalRankFusion sem kw limit,
      r.score ≤ 2 / 61 ∧
      r.score = dictGetD (rrfScores sem kw) r.chunk.id 0 ∧
      min (dictGetD (rrfScores sem kw) r.chunk.id 0) 1
        = dictGetD (rrfScores sem kw) r.chunk.id 0) ∧
    hybridQueryResults sem kw limit (some m) = [] := by
  have hknodup : (dictKeys (rrfScores sem kw)).Nodup := by
    unfold rrfScores
    exact rrfAdd_keys_nodup _ _ _ (rrfAdd_keys_nodup _ _ _ (by simp [dictKeys]))
  have hmain : ∀ r ∈ reciprocalRankFusion sem kw limit,
      r.score ≤ 2 / 61 ∧
      r.score = dictGetD (rrfScores sem kw) r.chunk.id 0 ∧
      min (dictGetD (rrfScores sem kw) r.chunk.id 0) 1
        = dictGetD (rrfScores sem kw) r.chunk.id 0 := by
    intro r hr
    unfold reciprocalRankFusion at hr
    obtain ⟨ip, hip, hr⟩ := List.mem_map.1 hr
    obtain ⟨i, id, v⟩ := ip
    have hmem : (id, v) ∈ rrfScores sem kw := by
      have htake := List.snd_mem_of_mem_enum hip
      have := List.mem_of_mem_take htake
      rwa [List.mem_insertionSort] at this
    have hvval : dictGetD (rrfScores sem kw) id 0 = v :=
      mem_dictGetD _ id v 0 hknodup hmem
    obtain ⟨hv0, hv2⟩ := rrfScores_getD_nonneg_le sem kw h1 h2 id
    rw [hvval] at hv0 hv2
    have hcov : id ∈ chunkIds sem ∨ id ∈ chunkIds kw := by
      have hkmem : id ∈ dictKeys (rrfScores sem kw) := by
        simp only [dictKeys, List.mem_map]
        exact ⟨(id, v), hmem, rfl⟩
      unfold rrfScores at hkmem
      rcases rrfAdd_keys_subset _ _ _ _ hkmem with hin | hin
      · rcases rrfAdd_keys_subset _ _ _ _ hin with hin' | hin'
        · simp [dictKeys] at hin'
        · exact Or.inl hin'
      · exact Or.inr hin
    have hcmap : ∃ c0 t, dictGet (chunkMap sem kw) id = some (c0, t) ∧ c0.id = id := by
      unfold chunkMap
      by_cases hsem : id ∈ chunkIds sem
      · obtain ⟨c0, hc0, hc0id⟩ := chunkMapSem_adds sem [] id rfl hsem
        by_cases hkw : id ∈ chunkIds kw
        · exact ⟨c0, "hybrid", chunkMapKw_hybrid kw _ id c0 "semantic" h2 hkw hc0, hc0id⟩
        · exact ⟨c0, "semantic", by rw [chunkMapKw_not_mem kw _ id hkw]; exact hc0, hc0id⟩
      · have hnone : dictGet (chunkMapSem [] sem) id = none :=
          chunkMapSem_none sem [] id rfl hsem
        have hkw : id ∈ chunkIds kw := (hcov.resolve_left hsem)
        obtain ⟨c0, hc0, hc0id⟩ := chunkMapKw_keyword kw _ id h2 hkw hnone
        exact ⟨c0, "keyword", hc0, hc0id⟩
    obtain ⟨c0, t, hc0get, hc0id⟩ := hcmap
    rw [show ((i, id, v) : Nat × String × ℚ).2.1 = id from rfl] at hr
    rw [hc0get] at hr
    subst hr
    have hmin : min v 1 = v := min_eq_left (by linarith)
    refine ⟨?_, ?_, ?_⟩
    · show min v 1 ≤ 2 / 61
      rw [hmin]
      exact hv2
    · show min v 1 = dictGetD (rrfScores sem kw) c0.id 0
      rw [hmin, hc0id, hvval]
    · show min (dictGetD (rrfScores sem kw) c0.id 0) 1
        = dictGetD (rrfScores sem kw) c0.id 0
      rw [hc0id, hvval]
      exact hmin
  refine ⟨hmain, ?_⟩
  have hm0 : m ≠ 0 := ne_of_gt (lt_trans (by norm_num) hm)
  unfold hybridQueryResults
  have htruthy : minScoreTruthy (some m) = true := by
    simp [minScoreTruthy, hm0]
  rw [htruthy, if_pos rfl]
  rw [List.eq_nil_iff_forall_not_mem]
  intro r hr
  rw [List.mem_filter] at hr
  have hle := (hmain r hr.1).1
  have hge : m ≤ r.score := by simpa using hr.2
  linarith

/-- C10 witness: the cap and the empty filtered result instantiated on
concrete nonempty semantic and keyword result lists with
`min_score = 1/2 > 2/61`. -/
theorem C10_witness :
    (∀ r ∈ reciprocalRankFusion
        [(⟨"a", "x", "f", none, 0, 1, 0⟩, 9/10)]
        [(⟨"b", "y", "f", none, 0, 1, 0⟩, 8/10)] 5,
      r.score ≤ 2 / 61 ∧
      r.score = dictGetD (rrfScores
        [(⟨"a", "x", "f", none, 0, 1, 0⟩, 9/10)]
        [(⟨"b", "y", "f", none, 0, 1, 0⟩, 8/10)]) r.chunk.id 0 ∧
      min (dictGetD (rrfScores
        [(⟨"a", "x", "f", none, 0, 1, 0⟩, 9/10)]
        [(⟨"b", "y", "f", none, 0, 1, 0⟩, 8/10)]) r.chunk.id 0) 1
        = dictGetD (rrfScores
        [(⟨"a", "x", "f", none, 0, 1, 0⟩, 9/10)]
        [(⟨"b", "y", "f", none, 0, 1, 0⟩, 8/10)]) r.chunk.id 0) ∧
    hybridQueryResults
      [(⟨"a", "x", "f", none, 0, 1, 0⟩, 9/10)]
      [(⟨"b", "y", "f", none, 0, 1, 0⟩, 8/10)] 5 (some (1/2)) = [] :=
  C10_hybrid_score_cap
    [(⟨"a", "x", "f", none, 0, 1, 0⟩, 9/10)]
    [(⟨"b", "y", "f", none, 0, 1, 0⟩, 8/10)] 5 (1/2)
    (by decide) (by decide) (by norm_num)

end DocMcp
